import Mathlib

/-!
Verification of the dependency-graph tool in `main.py`.

The embedding below follows the Python source function by function:
* `load_test_graph`, `get_deps_test`  — test-mode dependency source,
* `extract_dependencies`              — live-mode index parsing,
* `buildStep` / `buildLoop` / `build_graph` — the iterative DFS graph builder,
* `sortLoop` / `compute_load_order`   — the iterative topological sequencer,
* `make_mermaid_id` / `mermaid_lines` / `graph_to_mermaid` — the renderer.

Python dicts are modelled as insertion-ordered association lists, Python
sets as lists used only through membership / add / remove, and the two
`while` loops as fuel-indexed recursions returning `none` when the fuel is
exhausted (the source loops always terminate, so every concrete run below
is executed with enough fuel).
-/

namespace DepViz

abbrev Name := String

/-- A Python dict from package name to dependency list, kept in insertion
order as an association list. -/
abbrev Graph := List (Name × List Name)

/-- `g[k]` lookup returning `none` when the key is absent. -/
def lookupG (g : Graph) (k : Name) : Option (List Name) :=
  (g.find? (fun p => p.1 == k)).map (fun p => p.2)

/-- The keys of the dict, in insertion order. -/
def keysG (g : Graph) : List Name := g.map (fun p => p.1)

/-- `g[k] = v` on a Python dict: replaces the value of an existing key in
place, otherwise appends the new binding at the end. -/
def dictInsert (g : Graph) (k : Name) (v : List Name) : Graph :=
  if (lookupG g k).isSome then
    g.map (fun p => if p.1 = k then (k, v) else p)
  else g ++ [(k, v)]

/-- Python `str.split(sep)` for a one-character separator, on the character
list of the string: split at every occurrence of the separator, keeping
empty pieces (so the result always has one more piece than separators). -/
def chSplit (p : Char → Bool) : List Char → List (List Char)
  | [] => [[]]
  | c :: cs =>
    if p c then [] :: chSplit p cs
    else
      match chSplit p cs with
      | [] => [[c]]
      | w :: ws => (c :: w) :: ws

/-- Python `text.split("\n\n")`: split at every non-overlapping occurrence
of two consecutive newlines, scanning left to right. -/
def chSplitNN : List Char → List (List Char)
  | '\n' :: '\n' :: rest => [] :: chSplitNN rest
  | c :: cs =>
    match chSplitNN cs with
    | [] => [[c]]
    | w :: ws => (c :: w) :: ws
  | [] => [[]]

/-- Python `str.strip()`: drop whitespace from both ends. -/
def chTrim (l : List Char) : List Char :=
  ((l.dropWhile Char.isWhitespace).reverse.dropWhile Char.isWhitespace).reverse

/-- Python `str.strip(",")`: drop commas from both ends. -/
def chStripCommas (l : List Char) : List Char :=
  ((l.dropWhile (fun c => c = ',')).reverse.dropWhile (fun c => c = ',')).reverse

/-- `sep.join pieces` used to undo a full split past the first separator:
`line.split(":", 1)`'s second component equals the full split's tail pieces
rejoined with the separator. -/
def chJoin (sep : List Char) : List (List Char) → List Char
  | [] => []
  | [w] => w
  | w :: ws => w ++ sep ++ chJoin sep ws

/-- Python `line.replace("Depends: ", "")`: delete every non-overlapping
occurrence of the literal `"Depends: "`, scanning left to right. -/
def chDropDepends : List Char → List Char
  | 'D' :: 'e' :: 'p' :: 'e' :: 'n' :: 'd' :: 's' :: ':' :: ' ' :: rest =>
    chDropDepends rest
  | c :: cs => c :: chDropDepends cs
  | [] => []

/-- Python `str.split()` with no argument: split on whitespace runs,
dropping empty pieces. -/
def pyWords (l : List Char) : List String :=
  ((chSplit Char.isWhitespace l).filter (fun w => w ≠ [])).map String.mk

/-- `load_test_graph` from `main.py`, over the list of lines of the fixture
file.  Lines without a colon are skipped; `line.split(":", 1)` gives the
package name (the part before the first colon, stripped) and the remainder
(rejoined past further colons), which is stripped and whitespace-split into
the dependency list (empty when blank after the colon). -/
def load_test_graph (lines : List String) : Graph :=
  lines.foldl (fun g line =>
    match chSplit (fun c => c = ':') line.toList with
    | [] => g
    | [_] => g
    | pkg :: rest =>
      let pkg := String.mk (chTrim pkg)
      let depsCh := chTrim (chJoin [':'] rest)
      let deps := if depsCh = [] then [] else pyWords depsCh
      dictInsert g pkg deps) []

/-- The test-mode `get_deps` closure in `build_graph`:
`full_graph.get(p, [])`. -/
def get_deps_test (full_graph : Graph) (p : Name) : List Name :=
  (lookupG full_graph p).getD []

/-- `extract_dependencies` from `main.py`.  `none` models the fatal
`sys.exit(1)` taken when no stanza block starts with `"Package: " ++ package`
(note: a *prefix* test, not an exact-name match).  Inside the first matching
block, the first `"Depends: "` line is parsed by splitting on commas and
keeping each piece's first space-delimited word with surrounding commas
stripped; a block without such a line yields the empty list. -/
def extract_dependencies (package : Name) (packages_text : String) :
    Option (List Name) :=
  let blocks := chSplitNN packages_text.toList
  match blocks.find? (fun b => ("Package: " ++ package).toList.isPrefixOf b) with
  | none => none
  | some block =>
    match (chSplit (fun c => c = '\n') block).find?
        (fun l => ("Depends: ".toList).isPrefixOf l) with
    | none => some []
    | some line =>
      let raw := chTrim (chDropDepends line)
      some ((chSplit (fun c => c = ',') raw).map
        (fun d => String.mk (chStripCommas ((chSplit (fun c => c = ' ') d).headD []))))

/-! ### The graph builder (`build_graph`) -/

/-- The mutable state of `build_graph`'s `while stack:` loop.  `cycles`
records the nodes for which the `[ЦИКЛ]` notification was printed. -/
structure BState where
  stack : List (Name × Nat)
  visited : List Name
  in_stack : List Name
  graph : Graph
  cycles : List Name

/-- One iteration of the builder loop, applied to the popped pair
`(node, depth)` and the remaining state.  Mirrors the branch order of the
source: depth prune, visited skip, on-stack cycle report, expansion.  In
the expansion branch the source adds `node` to `in_stack`, records
`graph[node] = deps`, pushes each dep (reversed, so that with LIFO popping
the head of our stack list is the first dep), removes `node` from
`in_stack` and marks it visited. -/
def buildStep (get_deps : Name → List Name) (max_depth : Nat)
    (node : Name) (depth : Nat) (rest : List (Name × Nat))
    (visited in_stack : List Name) (graph : Graph) (cycles : List Name) :
    BState :=
  if depth > max_depth then ⟨rest, visited, in_stack, graph, cycles⟩
  else if node ∈ visited then ⟨rest, visited, in_stack, graph, cycles⟩
  else if node ∈ in_stack then ⟨rest, visited, in_stack, graph, cycles ++ [node]⟩
  else
    let in_stack2 := node :: in_stack
    let deps := get_deps node
    let graph2 := dictInsert graph node deps
    let stack2 := (deps.map (fun d => (d, depth + 1))) ++ rest
    let in_stack3 := in_stack2.erase node
    let visited2 := node :: visited
    ⟨stack2, visited2, in_stack3, graph2, cycles⟩

/-- The builder's `while stack:` loop, with fuel.  Returns the final graph
together with the list of reported cycles. -/
def buildLoop (get_deps : Name → List Name) (max_depth : Nat) :
    Nat → BState → Option (Graph × List Name)
  | _, ⟨[], _, _, graph, cycles⟩ => some (graph, cycles)
  | 0, _ => none
  | fuel + 1, ⟨(node, depth) :: rest, visited, in_stack, graph, cycles⟩ =>
    buildLoop get_deps max_depth fuel
      (buildStep get_deps max_depth node depth rest visited in_stack graph cycles)

/-- `build_graph` from `main.py`, abstracted over the `get_deps` capability
(the source builds it from the fixture in test mode or from the downloaded
index in live mode).  The stack is seeded with `(start_pkg, 1)` and all
three book-keeping sets start empty. -/
def build_graph (get_deps : Name → List Name) (start_pkg : Name)
    (max_depth : Nat) (fuel : Nat) : Option (Graph × List Name) :=
  buildLoop get_deps max_depth fuel ⟨[(start_pkg, 1)], [], [], [], []⟩

/-- Test-mode `build_graph` over a fixture file given as its lines. -/
def build_graph_test (lines : List String) (start : Name)
    (max_depth fuel : Nat) : Option (Graph × List Name) :=
  build_graph (get_deps_test (load_test_graph lines)) start max_depth fuel

/-! ### The topological sequencer (`compute_load_order`) -/

/-- The mutable state of `compute_load_order` apart from its stack. -/
structure SState where
  visited : List Name
  in_stack : List Name
  order : List Name

/-- `graph.get(node, [])`. -/
def getd (graph : Graph) (n : Name) : List Name := (lookupG graph n).getD []

/-- The sequencer's `while stack:` loop, with fuel.  The outer `none` is
fuel exhaustion; `some none` is the source's `return None` on a detected
cycle; `some (some st)` is normal loop exit.  Branch order follows the
source: cycle test, visited skip, post-visit append, first visit (push the
`(node, true)` marker, then the deps so that the last dep is on top). -/
def sortLoop (graph : Graph) :
    Nat → List (Name × Bool) → SState → Option (Option SState)
  | _, [], st => some (some st)
  | 0, _ :: _, _ => none
  | fuel + 1, (node, expanded) :: rest, st =>
    if node ∈ st.in_stack ∧ expanded = false then some none
    else if node ∈ st.visited then sortLoop graph fuel rest st
    else if expanded then
      sortLoop graph fuel rest
        ⟨node :: st.visited, st.in_stack.erase node, st.order ++ [node]⟩
    else
      sortLoop graph fuel
        (((getd graph node).map (fun d => (d, false))).reverse
          ++ (node, true) :: rest)
        ⟨st.visited, node :: st.in_stack, st.order⟩

/-- `compute_load_order` from `main.py`: run the loop from `[(start, false)]`
and return `list(reversed(order))`; `some none` models the source's `None`. -/
def compute_load_order (graph : Graph) (start : Name) (fuel : Nat) :
    Option (Option (List Name)) :=
  match sortLoop graph fuel [(start, false)] ⟨[], [], []⟩ with
  | none => none
  | some none => some none
  | some (some st) => some (some st.order.reverse)

/-! ### The Mermaid renderer -/

/-- `_make_mermaid_id` from `main.py`: non-alphanumeric, non-underscore
characters become `_`; an empty result becomes `pkg`; a leading digit gets
the `pkg_` prefix. -/
def make_mermaid_id (name : Name) : String :=
  let safe := String.mk (name.toList.map
    (fun c => if c.isAlphanum ∨ c = '_' then c else '_'))
  let safe := if safe = "" then "pkg" else safe
  if (safe.toList.headD 'a').isDigit then "pkg_" ++ safe else safe

/-- The body of `graph_to_mermaid` as the list of emitted lines.  The
`id_map` dict comprehension applies `_make_mermaid_id` to every node name,
so looking a name up in it is the same as applying the function. -/
def mermaid_lines (graph : Graph) (root : Name) : List String :=
  let root_id := make_mermaid_id root
  let init : List String := ["graph TD", "    " ++ root_id ++ "[\"" ++ root ++ "\"]"]
  let res := graph.foldl
    (fun (st : List String × List (String × String) × List String) pd =>
      let pkg := pd.1
      let pkg_id := make_mermaid_id pkg
      let st1 :=
        if pkg_id ∈ st.2.2 then st
        else (st.1 ++ ["    " ++ pkg_id ++ "[\"" ++ pkg ++ "\"]"],
              st.2.1, st.2.2 ++ [pkg_id])
      pd.2.foldl
        (fun (st2 : List String × List (String × String) × List String) dep =>
          let dep_id := make_mermaid_id dep
          let st3 :=
            if dep_id ∈ st2.2.2 then st2
            else (st2.1 ++ ["    " ++ dep_id ++ "[\"" ++ dep ++ "\"]"],
                  st2.2.1, st2.2.2 ++ [dep_id])
          if (pkg_id, dep_id) ∈ st3.2.1 then st3
          else (st3.1 ++ ["    " ++ pkg_id ++ " --> " ++ dep_id],
                st3.2.1 ++ [(pkg_id, dep_id)], st3.2.2)) st1)
    (init, [], [root_id])
  res.1 ++ ["class " ++ root_id ++ " root;",
    "classDef root fill:#f9f,stroke:#333,stroke-width:2px;"]

/-- `graph_to_mermaid` from `main.py`: the lines joined with newlines. -/
def graph_to_mermaid (graph : Graph) (root : Name) : String :=
  String.intercalate "\n" (mermaid_lines graph root)

/-! ### Claim theorems: concrete evaluations -/

/-- The ordering property claimed for the sequencer: every dependency that
is itself a graph key appears strictly before its dependent in the order. -/
def deps_first (g : Graph) (ord : List Name) : Prop :=
  ∀ p ∈ g, ∀ dep ∈ p.2, dep ∈ keysG g → ord.indexOf dep < ord.indexOf p.1

instance (g : Graph) (ord : List Name) : Decidable (deps_first g ord) := by
  unfold deps_first; infer_instance

/-- C1: the claim says that whenever `compute_load_order` returns a
sequence, every dependency that is itself a graph key appears strictly
before its dependent.  On the Scenario-1 graph the code returns
`[A, B, C]` — the *reverse* of a dependencies-first order (the source
reverses an already dependencies-first post-order) — so the claimed
property fails at this input. -/
theorem C1_order_not_deps_first :
    compute_load_order [("A", ["B", "C"]), ("B", ["C"]), ("C", [])] "A" 50 =
      some (some ["A", "B", "C"]) ∧
    ¬ deps_first [("A", ["B", "C"]), ("B", ["C"]), ("C", [])] ["A", "B", "C"] := by
  decide

/-- C2: on the fixture `A: B C / B: C / C: / D:` with start `A` and depth 5
the Builder does produce the claimed graph `{A:[B,C], B:[C], C:[]}` (with no
cycle report), but the Sequencer returns `[A, B, C]`, not the claimed
`[C, B, A]`. -/
theorem C2_scenario1_eval :
    build_graph_test ["A: B C", "B: C", "C:", "D:"] "A" 5 50 =
      some ([("A", ["B", "C"]), ("B", ["C"]), ("C", [])], []) ∧
    compute_load_order [("A", ["B", "C"]), ("B", ["C"]), ("C", [])] "A" 50 =
      some (some ["A", "B", "C"]) ∧
    (["A", "B", "C"] : List Name) ≠ ["C", "B", "A"] := by
  decide

/-- C3 counterexample: in test mode `get_deps` is `full_graph.get(p, [])`,
a total function that cannot fail: a directly queried name absent from the
backing map silently yields `[]`, indistinguishable from a present package
with no dependencies — contradicting the claim that both modes fail with
`PackageNotFound` and never silently default. -/
theorem C3_counterexample :
    get_deps_test [] "A" = [] ∧ "A" ∉ keysG ([] : Graph) ∧
    get_deps_test [("A", [])] "A" = [] := by
  decide

/-- `extract_dependencies` is fatal exactly when no stanza block passes the
`startswith` test. -/
lemma extract_none_iff (package : Name) (text : String) :
    extract_dependencies package text = none ↔
      (chSplitNN text.toList).find?
        (fun b => ("Package: " ++ package).toList.isPrefixOf b) = none := by
  unfold extract_dependencies
  dsimp only
  split
  next heq =>
    rw [List.find?_eq_none] at heq
    simpa using heq
  next block heq =>
    have hmem := List.mem_of_find?_eq_some heq
    have hpref := List.find?_some heq
    split
    next =>
      simp only [reduceCtorEq, false_iff, List.find?_eq_none, not_forall]
      exact ⟨block, by simpa using hmem, by simpa using hpref⟩
    next =>
      simp only [reduceCtorEq, false_iff, List.find?_eq_none, not_forall]
      exact ⟨block, by simpa using hmem, by simpa using hpref⟩

/-- C3 (amended): only live mode is fatal on a missing stanza — and there
by block-prefix match — while test mode silently returns `[]` for any name
absent from the file-backed map. -/
theorem C3_amended_thm :
    (∀ g p, p ∉ keysG g → get_deps_test g p = []) ∧
    (∀ pkg text, extract_dependencies pkg text = none ↔
      ∀ b ∈ chSplitNN text.toList, ¬ ("Package: " ++ pkg).toList.isPrefixOf b) := by
  constructor
  · intro g p hp
    have hfind : g.find? (fun q => q.1 == p) = none := by
      rw [List.find?_eq_none]
      intro x hx
      simp only [beq_iff_eq]
      intro hxp
      exact hp (hxp ▸ List.mem_map_of_mem (fun q => q.1) hx)
    simp [get_deps_test, lookupG, hfind]
  · intro pkg text
    rw [extract_none_iff, List.find?_eq_none]

/-- C3 witness: the amended theorem applied at concrete inputs — an absent
test-mode name yields `[]`, and a live-mode query with no matching stanza
prefix is fatal. -/
theorem C3_witness :
    get_deps_test [("A", [])] "B" = [] ∧
    extract_dependencies "zzz" "Package: aaa\n\nPackage: bbb" = none :=
  ⟨C3_amended_thm.1 [("A", [])] "B" (by decide),
   (C3_amended_thm.2 "zzz" "Package: aaa\n\nPackage: bbb").mpr (by decide)⟩

/-- C4: for the fixture `A: B / B: A`, start `A`, depth 5, the Builder does
produce `{A:[B], B:[A]}` but reports *no* cycle (the `cycles` component is
empty): the source removes `node` from `in_stack` in the same iteration
that added it, so `in_stack` is empty at every pop and `A`'s second
encounter is silently skipped by the `visited` check, contradicting the
claimed cycle report at `A`'s second encounter. -/
theorem C4_no_cycle_report :
    build_graph_test ["A: B", "B: A"] "A" 5 50 =
      some ([("A", ["B"]), ("B", ["A"])], []) := by
  decide

/-- C8: `_make_mermaid_id` is not injective — `"a.b"` and `"a_b"` both map
to `"a_b"` — and on a graph containing both names the renderer emits a
single node declaration (labelled with whichever name came first) and
attaches both packages' edges to that one identifier. -/
theorem C8_mermaid_id_collision :
    make_mermaid_id "a.b" = "a_b" ∧ make_mermaid_id "a_b" = "a_b" ∧
    ("a.b" : Name) ≠ "a_b" ∧
    mermaid_lines [("a.b", ["c"]), ("a_b", ["d"])] "a.b" =
      ["graph TD", "    a_b[\"a.b\"]", "    c[\"c\"]", "    a_b --> c",
       "    d[\"d\"]", "    a_b --> d", "class a_b root;",
       "classDef root fill:#f9f,stroke:#333,stroke-width:2px;"] ∧
    (mermaid_lines [("a.b", ["c"]), ("a_b", ["d"])] "a.b").countP
      (fun l => ("    a_b[".toList).isPrefixOf l.toList) = 1 := by
  decide

/-- C9: live-mode lookup matches stanzas with `startswith`, so querying
`"foo"` against an index whose first stanza is `Package: foobar` returns
`foobar`'s dependency list even though a genuine `Package: foo` stanza
(with different dependencies) follows. -/
theorem C9_prefix_match_bug :
    extract_dependencies "foo"
      "Package: foobar\nDepends: libx\n\nPackage: foo\nDepends: liby" =
      some ["libx"] ∧
    extract_dependencies "foobar"
      "Package: foobar\nDepends: libx\n\nPackage: foo\nDepends: liby" =
      some ["libx"] ∧
    extract_dependencies "foo" "Package: foo\nDepends: liby" = some ["liby"] ∧
    ("foo" : Name) ≠ "foobar" := by
  decide

/-! ### Builder invariants (C5, C7) -/

lemma lookupG_eq_none_of_not_mem {g : Graph} {k : Name} (h : k ∉ keysG g) :
    lookupG g k = none := by
  unfold lookupG
  rw [Option.map_eq_none', List.find?_eq_none]
  intro p hp
  simp only [beq_iff_eq]
  intro hpk
  exact h (hpk ▸ List.mem_map_of_mem (fun q => q.1) hp)

lemma lookupG_append_left {g g2 : Graph} {k : Name} {v : List Name}
    (h : lookupG g k = some v) : lookupG (g ++ g2) k = some v := by
  unfold lookupG at h ⊢
  obtain ⟨p, hp, hv⟩ := Option.map_eq_some'.1 h
  rw [List.find?_append, hp]
  simp [hv]

lemma dictInsert_of_not_mem {g : Graph} {k : Name} {v : List Name}
    (h : k ∉ keysG g) : dictInsert g k v = g ++ [(k, v)] := by
  unfold dictInsert
  rw [lookupG_eq_none_of_not_mem h]
  simp

lemma mem_keysG_dictInsert {g : Graph} {k k' : Name} {v : List Name}
    (h : k' ∈ keysG (dictInsert g k v)) : k' ∈ keysG g ∨ k' = k := by
  unfold dictInsert at h
  split at h
  · unfold keysG at h
    rw [List.map_map] at h
    obtain ⟨q, hq, hqk⟩ := List.mem_map.1 h
    simp only [Function.comp] at hqk
    by_cases hc : q.1 = k
    · rw [if_pos hc] at hqk
      right; exact hqk ▸ rfl
    · rw [if_neg hc] at hqk
      left; exact hqk ▸ List.mem_map_of_mem (fun q => q.1) hq
  · unfold keysG at h
    rw [List.map_append] at h
    rcases List.mem_append.1 h with h | h
    · left; exact h
    · right; simpa using h

/-- Packages reachable from `start` along `get_deps` edges at exactly depth
`d` in the source's counting (the start package has depth 1, each traversed
edge adds 1).  Computable, so that concrete instances can be decided. -/
def reachListAt (get_deps : Name → List Name) (start : Name) : Nat → List Name
  | 0 => []
  | 1 => [start]
  | d + 2 => (reachListAt get_deps start (d + 1)).flatMap get_deps

lemma reachListAt_step {gd : Name → List Name} {start n dep : Name} {d : Nat}
    (hn : n ∈ reachListAt gd start d) (hdep : dep ∈ gd n) :
    dep ∈ reachListAt gd start (d + 1) := by
  cases d with
  | zero => simp [reachListAt] at hn
  | succ k => exact List.mem_flatMap.2 ⟨n, hn, hdep⟩

/-- Loop invariant for the builder: every stacked pair is reachable at some
depth at most its recorded depth, and every graph key is reachable at some
depth at most `max_depth`; both facts survive to the returned graph. -/
lemma buildLoop_keys_reach (gd : Name → List Name) (md : Nat) (start : Name) :
    ∀ fuel stack visited in_stack graph cycles g c,
      (∀ p ∈ stack, ∃ d, d ≤ p.2 ∧ p.1 ∈ reachListAt gd start d) →
      (∀ k ∈ keysG graph, ∃ d, d ≤ md ∧ k ∈ reachListAt gd start d) →
      buildLoop gd md fuel ⟨stack, visited, in_stack, graph, cycles⟩ = some (g, c) →
      ∀ k ∈ keysG g, ∃ d, d ≤ md ∧ k ∈ reachListAt gd start d := by
  intro fuel
  induction fuel with
  | zero =>
    intro stack visited in_stack graph cycles g c hstack hgraph hrun
    cases stack with
    | nil =>
      simp only [buildLoop, Option.some.injEq, Prod.mk.injEq] at hrun
      exact hrun.1 ▸ hgraph
    | cons hd tl => simp [buildLoop] at hrun
  | succ fuel ih =>
    intro stack visited in_stack graph cycles g c hstack hgraph hrun
    cases stack with
    | nil =>
      simp only [buildLoop, Option.some.injEq, Prod.mk.injEq] at hrun
      exact hrun.1 ▸ hgraph
    | cons hd tl =>
      obtain ⟨node, depth⟩ := hd
      simp only [buildLoop] at hrun
      unfold buildStep at hrun
      by_cases h1 : depth > md
      · rw [if_pos h1] at hrun
        exact ih tl _ _ _ _ g c
          (fun p hp => hstack p (List.mem_cons_of_mem _ hp)) hgraph hrun
      rw [if_neg h1] at hrun
      by_cases h2 : node ∈ visited
      · rw [if_pos h2] at hrun
        exact ih tl _ _ _ _ g c
          (fun p hp => hstack p (List.mem_cons_of_mem _ hp)) hgraph hrun
      rw [if_neg h2] at hrun
      by_cases h3 : node ∈ in_stack
      · rw [if_pos h3] at hrun
        exact ih tl _ _ _ _ g c
          (fun p hp => hstack p (List.mem_cons_of_mem _ hp)) hgraph hrun
      rw [if_neg h3] at hrun
      dsimp only at hrun
      obtain ⟨d0, hd0, hr0⟩ := hstack (node, depth) (List.mem_cons_self _ _)
      refine ih _ _ _ _ _ g c ?_ ?_ hrun
      · intro p hp
        rcases List.mem_append.1 hp with hp | hp
        · obtain ⟨dep, hdep, rfl⟩ := List.mem_map.1 hp
          exact ⟨d0 + 1, by omega, reachListAt_step hr0 hdep⟩
        · exact hstack p (List.mem_cons_of_mem _ hp)
      · intro k hk
        rcases mem_keysG_dictInsert hk with hk | rfl
        · exact hgraph k hk
        · exact ⟨d0, by omega, hr0⟩

/-- C5: if the Builder terminates with graph `g`, then no package that is
unreachable at every depth `≤ max_depth` (i.e. reachable only beyond the
bound, if at all) is a key of `g`. -/
theorem C5_depth_bound (get_deps : Name → List Name) (start : Name)
    (max_depth fuel : Nat) (g : Graph) (c : List Name) (n : Name)
    (_hmd : 1 ≤ max_depth)
    (hrun : build_graph get_deps start max_depth fuel = some (g, c))
    (hfar : ∀ d ≤ max_depth, n ∉ reachListAt get_deps start d) :
    n ∉ keysG g := by
  intro hmem
  obtain ⟨d, hd, hr⟩ := buildLoop_keys_reach get_deps max_depth start fuel
    [(start, 1)] [] [] [] [] g c
    (by
      intro p hp
      simp only [List.mem_singleton] at hp
      exact hp ▸ ⟨1, le_refl 1, by simp [reachListAt]⟩)
    (by simp [keysG]) hrun n hmem
  exact hfar d hd hr

/-- C5 witness: Scenario 3 — fixture `A: B / B: C / C: D`, start `A`,
depth 2: the graph is `{A:[B], B:[C]}` and `C` (reachable only at depth 3)
is not a key. -/
theorem C5_witness :
    build_graph_test ["A: B", "B: C", "C: D"] "A" 2 50 =
      some ([("A", ["B"]), ("B", ["C"])], []) ∧
    "C" ∉ keysG [("A", ["B"]), ("B", ["C"])] :=
  ⟨by decide,
   C5_depth_bound (get_deps_test (load_test_graph ["A: B", "B: C", "C: D"]))
     "A" 2 50 [("A", ["B"]), ("B", ["C"])] [] "C" (by decide) (by decide)
     (by decide)⟩

/-- The data-model invariant of the Builder, at an iteration boundary of
its work-stack loop: no name is simultaneously on-stack and visited, every
graph key is visited, and the keys are pairwise distinct (each was assigned
exactly once). -/
def BInv (s : BState) : Prop :=
  (∀ n ∈ s.in_stack, n ∉ s.visited) ∧
  (∀ k ∈ keysG s.graph, k ∈ s.visited) ∧
  (keysG s.graph).Nodup

instance (s : BState) : Decidable (BInv s) := by
  unfold BInv; infer_instance

/-- C7: the Builder's invariant holds initially and is preserved by every
loop iteration (`buildStep`), and an iteration never changes the value
recorded for an existing graph key. -/
theorem C7_builder_invariants :
    (∀ start : Name, BInv ⟨[(start, 1)], [], [], [], []⟩) ∧
    ∀ get_deps max_depth node depth rest visited in_stack graph cycles,
      BInv ⟨(node, depth) :: rest, visited, in_stack, graph, cycles⟩ →
      BInv (buildStep get_deps max_depth node depth rest visited in_stack
        graph cycles) ∧
      ∀ k v, lookupG graph k = some v →
        lookupG (buildStep get_deps max_depth node depth rest visited in_stack
          graph cycles).graph k = some v := by
  constructor
  · intro start
    exact ⟨by simp, by simp [keysG], by simp [keysG]⟩
  · intro gd md node depth rest visited in_stack graph cycles hinv
    obtain ⟨hdisj, hkeys, hnodup⟩ := hinv
    unfold buildStep
    by_cases h1 : depth > md
    · rw [if_pos h1]
      exact ⟨⟨hdisj, hkeys, hnodup⟩, fun k v hv => hv⟩
    rw [if_neg h1]
    by_cases h2 : node ∈ visited
    · rw [if_pos h2]
      exact ⟨⟨hdisj, hkeys, hnodup⟩, fun k v hv => hv⟩
    rw [if_neg h2]
    by_cases h3 : node ∈ in_stack
    · rw [if_pos h3]
      exact ⟨⟨hdisj, hkeys, hnodup⟩, fun k v hv => hv⟩
    rw [if_neg h3]
    dsimp only
    have hnotkey : node ∉ keysG graph := fun h => h2 (hkeys node h)
    have hins : dictInsert graph node (gd node) = graph ++ [(node, gd node)] :=
      dictInsert_of_not_mem hnotkey
    have herase : (node :: in_stack).erase node = in_stack := by
      simp
    constructor
    · refine ⟨?_, ?_, ?_⟩
      · rw [herase]
        intro n hn
        simp only [List.mem_cons, not_or]
        exact ⟨fun he => h3 (he ▸ hn), hdisj n hn⟩
      · rw [hins]
        unfold keysG
        rw [List.map_append]
        intro k hk
        rcases List.mem_append.1 hk with hk | hk
        · exact List.mem_cons_of_mem _ (hkeys k hk)
        · simp only [List.map_cons, List.map_nil, List.mem_singleton] at hk
          simp [hk]
      · rw [hins]
        unfold keysG
        rw [List.map_append, List.nodup_append]
        refine ⟨hnodup, by simp, ?_⟩
        intro a ha hb
        simp only [List.map_cons, List.map_nil, List.mem_singleton] at hb
        exact hnotkey (hb ▸ ha)
    · intro k v hv
      rw [hins]
      exact lookupG_append_left hv

/-- C7 witness: a concrete expansion step (popping `("B", 2)` with `A`
already visited and recorded) preserves the invariant and the existing
entry for `A`. -/
theorem C7_witness :
    BInv (buildStep (get_deps_test (load_test_graph ["A: B"])) 5 "B" 2 []
      ["A"] [] [("A", ["B"])] []) ∧
    lookupG (buildStep (get_deps_test (load_test_graph ["A: B"])) 5 "B" 2 []
      ["A"] [] [("A", ["B"])] []).graph "A" = some ["B"] :=
  ⟨(C7_builder_invariants.2 (get_deps_test (load_test_graph ["A: B"])) 5 "B" 2
      [] ["A"] [] [("A", ["B"])] [] (by decide)).1,
   (C7_builder_invariants.2 (get_deps_test (load_test_graph ["A: B"])) 5 "B" 2
      [] ["A"] [] [("A", ["B"])] [] (by decide)).2 "A" ["B"] (by decide)⟩

/-! ### Sequencer metatheory (C6, C10) -/

/-- The accumulated post-order list is dependency-closed with earlier
positions: each element's dependencies all occur strictly before it. -/
def ordOK (g : Graph) (ord : List Name) : Prop :=
  ∀ (i : Nat) (h : i < ord.length), ∀ dep ∈ getd g ord[i], dep ∈ ord.take i

/-- The sequencer's running invariant: the visited set and the accumulated
order have the same members, the order has no duplicates, and it is
dependency-closed with earlier positions. -/
def Good (g : Graph) (st : SState) : Prop :=
  (∀ n, n ∈ st.visited ↔ n ∈ st.order) ∧ st.order.Nodup ∧ ordOK g st.order

lemma ordOK_append {g : Graph} {ord : List Name} {m : Name} (h : ordOK g ord)
    (hm : ∀ dep ∈ getd g m, dep ∈ ord) : ordOK g (ord ++ [m]) := by
  intro i hi dep hdep
  rw [List.length_append] at hi
  simp only [List.length_singleton] at hi
  by_cases hlt : i < ord.length
  · rw [List.getElem_append_left hlt] at hdep
    have hmem := h i hlt dep hdep
    rw [List.take_append_of_le_length (le_of_lt hlt)]
    exact hmem
  · have hieq : i = ord.length := by omega
    subst hieq
    rw [List.getElem_append_right (le_refl _)] at hdep
    simp only [Nat.sub_self, List.getElem_cons_zero] at hdep
    rw [List.take_append_of_le_length (le_refl _), List.take_length]
    exact hm dep hdep

lemma indexOf_lt_of_mem_take :
    ∀ (l : List Name) (i : Nat) (a : Name), a ∈ l.take i → l.indexOf a < i := by
  intro l
  induction l with
  | nil => intro i a ha; simp at ha
  | cons b tl ih =>
    intro i a ha
    cases i with
    | zero => simp at ha
    | succ i =>
      rw [List.take_succ_cons] at ha
      rcases List.mem_cons.1 ha with rfl | ha
      · simp [List.indexOf_cons_self]
      · by_cases hab : b = a
        · subst hab; simp [List.indexOf_cons_self]
        · rw [List.indexOf_cons_ne _ hab]
          have := ih i a ha
          omega

/-- In a duplicate-free dependency-closed order, every dependency of a
member is a member with a strictly smaller index. -/
lemma ordOK_rank {g : Graph} {ord : List Name} (hOK : ordOK g ord)
    (hnd : ord.Nodup) {m dep : Name} (hm : m ∈ ord) (hdep : dep ∈ getd g m) :
    dep ∈ ord ∧ ord.indexOf dep < ord.indexOf m := by
  obtain ⟨i, hi, hget⟩ := List.getElem_of_mem hm
  have hmem := hOK i hi dep (hget ▸ hdep)
  refine ⟨List.take_subset i ord hmem, ?_⟩
  have hlt := indexOf_lt_of_mem_take ord i dep hmem
  have hidx : ord.indexOf m = i := by
    rw [← hget]
    exact List.indexOf_getElem hnd i hi
  omega

/-- Fuel monotonicity of the sequencer loop: a run that returns a result
returns the same result with any larger fuel. -/
lemma sortLoop_mono (g : Graph) :
    ∀ fuel fuel' frames st r, fuel ≤ fuel' →
      sortLoop g fuel frames st = some r → sortLoop g fuel' frames st = some r := by
  intro fuel
  induction fuel with
  | zero =>
    intro fuel' frames st r _ h
    cases frames with
    | nil => simpa [sortLoop] using h
    | cons f rest => simp [sortLoop] at h
  | succ fuel ih =>
    intro fuel' frames st r hle h
    cases frames with
    | nil => simpa [sortLoop] using h
    | cons f rest =>
      obtain ⟨node, expanded⟩ := f
      cases fuel' with
      | zero => omega
      | succ fuel2 =>
        have hle2 : fuel ≤ fuel2 := by omega
        simp only [sortLoop] at h ⊢
        by_cases hc1 : node ∈ st.in_stack ∧ expanded = false
        · rw [if_pos hc1] at h ⊢; exact h
        rw [if_neg hc1] at h ⊢
        by_cases hc2 : node ∈ st.visited
        · rw [if_pos hc2] at h ⊢; exact ih fuel2 rest st r hle2 h
        rw [if_neg hc2] at h ⊢
        by_cases hc3 : expanded = true
        · rw [if_pos hc3] at h ⊢
          exact ih fuel2 _ _ r hle2 h
        · rw [if_neg hc3] at h ⊢
          exact ih fuel2 _ _ r hle2 h

/-- Decomposition of a successful run over a concatenated stack: the front
part either aborts with a cycle (propagated) or completes to an
intermediate state from which the back part runs. -/
lemma sortLoop_append (g : Graph) :
    ∀ fuel s1 s2 st r,
      sortLoop g fuel (s1 ++ s2) st = some r →
      (sortLoop g fuel s1 st = some none ∧ r = none) ∨
      ∃ st1, sortLoop g fuel s1 st = some (some st1) ∧
        sortLoop g fuel s2 st1 = some r := by
  intro fuel
  induction fuel with
  | zero =>
    intro s1 s2 st r h
    cases s1 with
    | nil => right; exact ⟨st, by simp [sortLoop], h⟩
    | cons f rest =>
      rw [List.cons_append] at h
      obtain ⟨node, expanded⟩ := f
      simp [sortLoop] at h
  | succ fuel ih =>
    intro s1 s2 st r h
    cases s1 with
    | nil => right; exact ⟨st, by simp [sortLoop], h⟩
    | cons f rest =>
      obtain ⟨node, expanded⟩ := f
      rw [List.cons_append] at h
      simp only [sortLoop] at h ⊢
      by_cases hc1 : node ∈ st.in_stack ∧ expanded = false
      · rw [if_pos hc1] at h ⊢
        left
        exact ⟨rfl, (Option.some.inj h).symm⟩
      rw [if_neg hc1] at h ⊢
      by_cases hc2 : node ∈ st.visited
      · rw [if_pos hc2] at h ⊢
        rcases ih rest s2 st r h with ⟨h1, rfl⟩ | ⟨st1, h1, h2⟩
        · exact Or.inl ⟨h1, rfl⟩
        · exact Or.inr ⟨st1, h1, sortLoop_mono g fuel (fuel + 1) s2 st1 r (by omega) h2⟩
      rw [if_neg hc2] at h ⊢
      by_cases hc3 : expanded = true
      · rw [if_pos hc3] at h ⊢
        rcases ih rest s2 _ r h with ⟨h1, rfl⟩ | ⟨st1, h1, h2⟩
        · exact Or.inl ⟨h1, rfl⟩
        · exact Or.inr ⟨st1, h1, sortLoop_mono g fuel (fuel + 1) s2 st1 r (by omega) h2⟩
      · rw [if_neg hc3] at h ⊢
        rw [show (node, true) :: (rest ++ s2) = ((node, true) :: rest) ++ s2 from rfl,
          ← List.append_assoc] at h
        rcases ih _ s2 _ r h with ⟨h1, rfl⟩ | ⟨st1, h1, h2⟩
        · exact Or.inl ⟨h1, rfl⟩
        · exact Or.inr ⟨st1, h1, sortLoop_mono g fuel (fuel + 1) s2 st1 r (by omega) h2⟩

/-- Postcondition of successfully processing one first-visit frame
`(n, false)` from state `st`: the invariant is restored, the on-stack set
is unchanged, visited grows monotonically and now holds `n`, no name that
was on-stack got visited, the order only grew at the end, and if `n` was
new it is the last appended element. -/
def SPost (g : Graph) (st : SState) (n : Name) (st' : SState) : Prop :=
  Good g st' ∧
  st'.in_stack = st.in_stack ∧
  (∀ m ∈ st.visited, m ∈ st'.visited) ∧
  n ∈ st'.visited ∧
  (∀ m ∈ st'.visited, m ∈ st.visited ∨ m ∉ st.in_stack) ∧
  (∃ t1, st'.order = st.order ++ t1) ∧
  (n ∉ st.visited → ∃ pre, st'.order = pre ++ [n] ∧ ∃ t2, pre = st.order ++ t2)

/-- Postcondition of successfully processing a list of first-visit frames. -/
def SPostL (g : Graph) (st : SState) (ds : List Name) (st' : SState) : Prop :=
  Good g st' ∧
  st'.in_stack = st.in_stack ∧
  (∀ m ∈ st.visited, m ∈ st'.visited) ∧
  (∀ d ∈ ds, d ∈ st'.visited) ∧
  (∀ m ∈ st'.visited, m ∈ st.visited ∨ m ∉ st.in_stack) ∧
  (∃ t1, st'.order = st.order ++ t1)

/-- Processing a list of first-visit frames, given the single-frame
property at the same fuel. -/
lemma sortLoop_list (g : Graph) (fuel : Nat)
    (IH : ∀ st n r, Good g st → sortLoop g fuel [(n, false)] st = some r →
      r = none ∨ ∃ st', r = some st' ∧ SPost g st n st') :
    ∀ ds st r, Good g st →
      sortLoop g fuel (ds.map (fun d => (d, false))) st = some r →
      r = none ∨ ∃ st', r = some st' ∧ SPostL g st ds st' := by
  intro ds
  induction ds with
  | nil =>
    intro st r hg h
    rw [List.map_nil] at h
    simp only [sortLoop] at h
    exact Or.inr ⟨st, (Option.some.inj h).symm, hg, rfl, fun m hm => hm,
      by simp, fun m hm => Or.inl hm, ⟨[], (List.append_nil _).symm⟩⟩
  | cons d ds ihds =>
    intro st r hg h
    rw [List.map_cons] at h
    rcases sortLoop_append g fuel [(d, false)] (ds.map (fun d => (d, false)))
      st r h with ⟨h1, rfl⟩ | ⟨st1, h1, h2⟩
    · exact Or.inl rfl
    · rcases IH st d (some st1) hg h1 with hcon | ⟨st1', heq, hpost⟩
      · exact absurd hcon (by simp)
      rw [Option.some.injEq] at heq
      subst heq
      obtain ⟨hG1, hi1, hm1, hn1, hnew1, ⟨t1, ho1⟩, _⟩ := hpost
      rcases ihds st1 r hG1 h2 with hr | ⟨st2, hr, hpost2⟩
      · exact Or.inl hr
      · obtain ⟨hG2, hi2, hm2, hd2, hnew2, ⟨t2, ho2⟩⟩ := hpost2
        refine Or.inr ⟨st2, hr, hG2, by rw [hi2, hi1],
          fun m hm => hm2 m (hm1 m hm), ?_, ?_,
          ⟨t1 ++ t2, by rw [ho2, ho1, List.append_assoc]⟩⟩
        · intro d' hd'
          rcases List.mem_cons.1 hd' with rfl | hd'
          · exact hm2 d' hn1
          · exact hd2 d' hd'
        · intro m hm
          rcases hnew2 m hm with h' | h'
          · rcases hnew1 m h' with h'' | h''
            · exact Or.inl h''
            · exact Or.inr h''
          · rw [hi1] at h'
            exact Or.inr h'

/-- Main single-frame lemma: a successful run of the sequencer loop from a
good state over the single frame `(n, false)` either aborts on a cycle or
reaches a good state satisfying `SPost`. -/
lemma sortLoop_single (g : Graph) :
    ∀ fuel st n r, Good g st →
      sortLoop g fuel [(n, false)] st = some r →
      r = none ∨ ∃ st', r = some st' ∧ SPost g st n st' := by
  intro fuel
  induction fuel with
  | zero => intro st n r _ h; simp [sortLoop] at h
  | succ fuel ih =>
    intro st n r hg h
    simp only [sortLoop] at h
    by_cases hc1 : n ∈ st.in_stack
    · rw [if_pos ⟨hc1, True.intro⟩] at h
      exact Or.inl (Option.some.inj h).symm
    rw [if_neg (fun hh => hc1 hh.1)] at h
    by_cases hc2 : n ∈ st.visited
    · rw [if_pos hc2] at h
      exact Or.inr ⟨st, (Option.some.inj h).symm, hg, rfl, fun m hm => hm, hc2,
        fun m hm => Or.inl hm, ⟨[], (List.append_nil _).symm⟩,
        fun hns => absurd hc2 hns⟩
    rw [if_neg hc2] at h
    rw [if_neg (by decide : ¬((false : Bool) = true))] at h
    rw [← List.map_reverse] at h
    rcases sortLoop_append g fuel ((getd g n).reverse.map (fun d => (d, false)))
      [(n, true)] ⟨st.visited, n :: st.in_stack, st.order⟩ r h with
      ⟨h1, rfl⟩ | ⟨st2, h1, h2⟩
    · exact Or.inl rfl
    · have hGood1 : Good g (⟨st.visited, n :: st.in_stack, st.order⟩ : SState) := hg
      rcases sortLoop_list g fuel ih ((getd g n).reverse) _ (some st2) hGood1 h1
        with hcon | ⟨st2', heq, hpostL⟩
      · exact absurd hcon (by simp)
      rw [Option.some.injEq] at heq
      subst heq
      obtain ⟨hG2, hins2, hmono2, hds2, hnew2, ⟨t2, hord2⟩⟩ := hpostL
      have hnv2 : n ∉ st2.visited := by
        intro hin
        rcases hnew2 n hin with hin' | hin'
        · exact hc2 hin'
        · exact hin' (List.mem_cons_self _ _)
      cases fuel with
      | zero => simp [sortLoop] at h2
      | succ fuel2 =>
        simp only [sortLoop] at h2
        rw [if_neg (fun hh => absurd hh.2 (by decide))] at h2
        rw [if_neg hnv2] at h2
        rw [if_pos True.intro] at h2
        refine Or.inr ⟨_, (Option.some.inj h2).symm, ⟨?_, ?_, ?_⟩, ?_, ?_,
          List.mem_cons_self _ _, ?_, ?_, ?_⟩
        · intro m
          simp only [List.mem_cons, List.mem_append, List.mem_singleton,
            List.mem_nil_iff, or_false]
          constructor
          · rintro (rfl | hm)
            · exact Or.inr rfl
            · exact Or.inl ((hG2.1 m).1 hm)
          · rintro (hm | rfl)
            · exact Or.inr ((hG2.1 m).2 hm)
            · exact Or.inl rfl
        · rw [List.nodup_append]
          refine ⟨hG2.2.1, List.nodup_singleton _, ?_⟩
          intro a ha hb
          rw [List.mem_singleton] at hb
          subst hb
          exact hnv2 ((hG2.1 a).2 ha)
        · apply ordOK_append hG2.2.2
          intro dep hdep
          exact (hG2.1 dep).1 (hds2 dep (List.mem_reverse.2 hdep))
        · rw [hins2]
          exact List.erase_cons_head _ _
        · intro m hm
          exact List.mem_cons_of_mem _ (hmono2 m hm)
        · intro m hm
          rcases List.mem_cons.1 hm with rfl | hm
          · exact Or.inr hc1
          · rcases hnew2 m hm with h' | h'
            · exact Or.inl h'
            · exact Or.inr (fun hmem => h' (List.mem_cons_of_mem _ hmem))
        · exact ⟨t2 ++ [n], by rw [hord2, List.append_assoc]⟩
        · intro _
          exact ⟨st2.order, rfl, t2, hord2⟩

/-- Properties of a successful `compute_load_order` run: the final state is
good, the output is the reverse of the accumulated order, and the order is
the accumulated prefix followed by `start` as its last element. -/
lemma compute_success_good (g : Graph) (start : Name) (fuel : Nat)
    (out : List Name) (h : compute_load_order g start fuel = some (some out)) :
    ∃ stF, Good g stF ∧ out = stF.order.reverse ∧ start ∈ stF.order ∧
      ∃ pre, stF.order = pre ++ [start] := by
  unfold compute_load_order at h
  split at h
  · exact absurd h (by simp)
  · exact absurd h (by simp)
  next stF heq =>
    simp only [Option.some.injEq] at h
    have hinit : Good g (⟨[], [], []⟩ : SState) :=
      ⟨by simp, List.nodup_nil, by intro i hi; simp at hi⟩
    rcases sortLoop_single g fuel _ start _ hinit heq with hcon | ⟨stF', heq2, hpost⟩
    · exact absurd hcon (by simp)
    rw [Option.some.injEq] at heq2
    subst heq2
    obtain ⟨hG, _, _, hsv, _, _, hlast⟩ := hpost
    obtain ⟨pre, hordeq, _⟩ := hlast (by simp)
    exact ⟨stF, hG, h.symm, (hG.1 start).1 hsv, pre, hordeq⟩

/-- C10: whenever `compute_load_order` returns a sequence, the start
package is its first element and occurs exactly once: the start's
post-visit marker sits at the bottom of the explicit stack, so `start` is
appended last to the post-order and the final reversal puts it first. -/
theorem C10_start_first (g : Graph) (start : Name) (fuel : Nat)
    (out : List Name) (h : compute_load_order g start fuel = some (some out)) :
    out.head? = some start ∧ out.count start = 1 := by
  obtain ⟨stF, hG, rfl, hmem, pre, hordeq⟩ := compute_success_good g start fuel _ h
  constructor
  · rw [hordeq]
    simp
  · rw [List.count_reverse]
    exact List.count_eq_one_of_mem hG.2.1 hmem

/-- C10 witness: the Scenario-1 run, whose output `[A, B, C]` starts with
`A` and contains it once. -/
theorem C10_witness :
    compute_load_order [("A", ["B", "C"]), ("B", ["C"]), ("C", [])] "A" 50 =
      some (some ["A", "B", "C"]) ∧
    (["A", "B", "C"] : List Name).head? = some "A" ∧
    (["A", "B", "C"] : List Name).count "A" = 1 :=
  ⟨by decide,
   C10_start_first [("A", ["B", "C"]), ("B", ["C"]), ("C", [])] "A" 50
     ["A", "B", "C"] (by decide)⟩

/-- One dependency edge of the graph: `b` is listed in `graph.get(a, [])`. -/
def GStep (g : Graph) (a b : Name) : Prop := b ∈ getd g a

lemma transGen_rank {g : Graph} {ord : List Name} (hOK : ordOK g ord)
    (hnd : ord.Nodup) :
    ∀ {a b}, Relation.TransGen (GStep g) a b → a ∈ ord →
      b ∈ ord ∧ ord.indexOf b < ord.indexOf a := by
  intro a b htg
  induction htg with
  | single hstep => intro ha; exact ordOK_rank hOK hnd ha hstep
  | tail _ hstep ih =>
    intro ha
    obtain ⟨hb, hlt⟩ := ih ha
    obtain ⟨hc, hlt2⟩ := ordOK_rank hOK hnd hb hstep
    exact ⟨hc, by omega⟩

lemma reflTransGen_mem {g : Graph} {ord : List Name} (hOK : ordOK g ord)
    (hnd : ord.Nodup) :
    ∀ {a b}, Relation.ReflTransGen (GStep g) a b → a ∈ ord → b ∈ ord := by
  intro a b hrt
  induction hrt with
  | refl => exact id
  | tail _ hstep ih => intro ha; exact (ordOK_rank hOK hnd (ih ha) hstep).1

/-- C6: if some package on a dependency cycle is reachable from `start`,
`compute_load_order` never returns a sequence (it returns the `None`
marker, or runs out of fuel in this embedding — never a successful
order). -/
theorem C6_cycle_absence (g : Graph) (start : Name) (fuel : Nat)
    (hcyc : ∃ n, Relation.ReflTransGen (GStep g) start n ∧
      Relation.TransGen (GStep g) n n) :
    ∀ out, compute_load_order g start fuel ≠ some (some out) := by
  intro out h
  obtain ⟨n, hreach, hloop⟩ := hcyc
  obtain ⟨stF, hG, _, hmem, _⟩ := compute_success_good g start fuel out h
  have hnm : n ∈ stF.order := reflTransGen_mem hG.2.2 hG.2.1 hreach hmem
  obtain ⟨_, hlt⟩ := transGen_rank hG.2.2 hG.2.1 hloop hnm
  omega

/-- C6 witness: the two-cycle `A ↔ B` from start `A` — the run returns the
`None` marker, and the theorem excludes any successful sequence. -/
theorem C6_witness :
    compute_load_order [("A", ["B"]), ("B", ["A"])] "A" 50 = some none ∧
    compute_load_order [("A", ["B"]), ("B", ["A"])] "A" 50 ≠
      some (some ["B", "A"]) := by
  constructor
  · decide
  · have hAB : GStep [("A", ["B"]), ("B", ["A"])] "A" "B" := by
      show ("B" : Name) ∈ getd [("A", ["B"]), ("B", ["A"])] "A"
      decide
    have hBA : GStep [("A", ["B"]), ("B", ["A"])] "B" "A" := by
      show ("A" : Name) ∈ getd [("A", ["B"]), ("B", ["A"])] "B"
      decide
    exact C6_cycle_absence [("A", ["B"]), ("B", ["A"])] "A" 50
      ⟨"A", Relation.ReflTransGen.refl,
       Relation.TransGen.head hAB (Relation.TransGen.single hBA)⟩ ["B", "A"]

end DepViz
